import Mathlib

/-!
# Verification of `libmatmul` (`src/include/Matrix/matrix.h`)

Shallow embedding of the `linalg::Matrix<T>` class: the underlying storage
`m_matrix : std::vector<std::vector<T>>` becomes `List (List α)`; the four
constructors, `operator*`, `transpose`, `size`, `operator==`, `isSame` and the
two `operator<<` overloads are translated function by function.  C++ code that
indexes a vector out of range (undefined behaviour / `std::abort`) is modelled
by `Option`: `none` means the operation did not return normally.
-/

namespace linalg

/-- The storage of `linalg::Matrix<T>`: the `m_matrix` member, a
`std::vector<std::vector<T>>`, i.e. a list of rows. -/
abbrev Matrix (α : Type) := List (List α)

/-- Reading `m[i][j]`: `none` models an out-of-range access (UB in C++). -/
def getE (m : Matrix α) (i j : Nat) : Option α :=
  (m.get? i).bind (fun row => row.get? j)

/-- Writing `m[i][j] = v` (used only at indices known to be in range;
`List.set` out of range is a no-op, which never happens in the loops below). -/
def setE (m : Matrix α) (i j : Nat) (v : α) : Matrix α :=
  m.set i ((m.getD i []).set j v)

/-- Total read with default, used to state entry-wise properties. -/
def entry [Zero α] (m : Matrix α) (i j : Nat) : α :=
  (m.getD i []).getD j 0

/-- Length of row `i` (0 when the row does not exist). -/
def rowLen (m : Matrix α) (i : Nat) : Nat :=
  (m.getD i []).length

/-- Well-formedness: the data-model invariant of the spec — shape `(r, c)`,
at least one row and one column, every row of identical length. -/
def wf (m : Matrix α) (r c : Nat) : Prop :=
  m.length = r ∧ 0 < r ∧ 0 < c ∧ ∀ row ∈ m, row.length = c

instance (m : Matrix α) (r c : Nat) : Decidable (wf m r c) := by
  unfold wf; infer_instance

/-- Constructor `Matrix(const T mat)`: `m_matrix{1, std::vector<T>(1, mat)}`,
one row holding one copy of the scalar. -/
def ofScalar (v : α) : Matrix α := [[v]]

/-- Constructor `Matrix(const std::vector<T>& mat)`: `m_matrix{1, mat}`,
one row that is the given vector. -/
def ofVec (xs : List α) : Matrix α := [xs]

/-- The validation loop of `Matrix(const std::vector<std::vector<T>>& mat)`:
`for (row=1; row<size; row++) if (m[row-1].size() != m[row].size()) abort();`
— adjacent rows compared pairwise. -/
def adjacentOk : Matrix α → Bool
  | [] => true
  | [_] => true
  | r1 :: r2 :: rest => r1.length == r2.length && adjacentOk (r2 :: rest)

/-- Constructor `Matrix(const std::vector<std::vector<T>>& mat)`: stores the
grid, then aborts (`none`) when two adjacent rows differ in length. -/
def ofNested (m : Matrix α) : Option (Matrix α) :=
  if adjacentOk m then some m else none

/-- Constructor `Matrix(const size_t& row, const size_t& col, T value=0)`:
`m_matrix{row, std::vector<T>(col, value)}` — `row` copies of a `col`-vector. -/
def ofDims (r c : Nat) (v : α) : Matrix α :=
  List.replicate r (List.replicate c v)

/-- `Matrix<T>::size()`: `make_pair(m_matrix.size(), m_matrix[0].size())`.
The unguarded `m_matrix[0]` is `none` when there is no first row. -/
def size (m : Matrix α) : Option (Nat × Nat) :=
  (m.get? 0).map (fun r0 => (m.length, r0.length))

/-- Body of the transpose loops: `res.m_matrix[j][i] = m_matrix[i][j];`. -/
def transposeStep (m res : Matrix α) (i j : Nat) : Option (Matrix α) := do
  let v ← getE m i j
  pure (setE res j i v)

/-- `Matrix<T>::transpose()`: `res(m_matrix[0].size(), m_matrix.size())`
then `for i < m_matrix.size(): for j < m_matrix[0].size(): res[j][i] = m[i][j]`. -/
def transpose [Zero α] (m : Matrix α) : Option (Matrix α) := do
  let r0 ← m.get? 0
  let res := ofDims r0.length m.length 0
  List.foldlM (fun res i =>
      List.foldlM (fun res j => transposeStep m res i j) res (List.range r0.length))
    res (List.range m.length)

/-- Body of the multiplication loops:
`res.m_matrix[i][j] += mat1.m_matrix[i][k] * mat2.m_matrix[k][j];`. -/
def mulStep [Mul α] [Add α] (m1 m2 res : Matrix α) (i k j : Nat) :
    Option (Matrix α) := do
  let a ← getE m1 i k
  let b ← getE m2 k j
  let cur ← getE res i j
  pure (setE res i j (cur + a * b))

/-- `operator*(mat1, mat2)`: aborts when `mat1.m_matrix[0].size() !=
mat2.m_matrix.size()`, otherwise builds `res(mat1.size(), mat2[0].size())`
(value-initialised to 0) and runs loops ordered `i` (result rows), `k` (shared
dimension), `j` (result columns).  The C++ loop bounds `res.m_matrix.size()`,
`mat1.m_matrix[0].size()` and `res.m_matrix[i].size()` are loop invariants
(`setE` changes neither the row count nor any row length), so they are the
fixed ranges below. -/
def mul [Mul α] [Add α] [Zero α] (m1 m2 : Matrix α) : Option (Matrix α) := do
  let r0 ← m1.get? 0
  if r0.length ≠ m2.length then none
  else do
    let s0 ← m2.get? 0
    let res := ofDims m1.length s0.length 0
    List.foldlM (fun res i =>
        List.foldlM (fun res k =>
            List.foldlM (fun res j => mulStep m1 m2 res i k j) res
              (List.range s0.length))
          res (List.range r0.length))
      res (List.range m1.length)

/-- The original (commented-out) `operator*`: same dimension check (`assert`),
same body, but loops ordered `i`, `j`, `k` — the full dot product per cell. -/
def mulOrig [Mul α] [Add α] [Zero α] (m1 m2 : Matrix α) : Option (Matrix α) := do
  let r0 ← m1.get? 0
  if r0.length ≠ m2.length then none
  else do
    let s0 ← m2.get? 0
    let res := ofDims m1.length s0.length 0
    List.foldlM (fun res i =>
        List.foldlM (fun res j =>
            List.foldlM (fun res k => mulStep m1 m2 res i k j) res
              (List.range r0.length))
          res (List.range s0.length))
      res (List.range m1.length)

/-- `operator==(m1, m2)`: `return (m1.m_matrix == m2.m_matrix);` —
structural equality of the nested vectors. -/
def eqMat [DecidableEq α] (m1 m2 : Matrix α) : Bool :=
  decide (m1 = m2)

/-- `isSame(m1, m2)`: `return (m1 == m2);`. -/
def isSame [DecidableEq α] (m1 m2 : Matrix α) : Bool :=
  eqMat m1 m2

/-- One row of `operator<<`: `output << "[ ";` then each element followed by
`' '`, then `"]"`.  `f` stands for the element type's own stream output. -/
def formatRow (f : α → String) (row : List α) : String :=
  "[ " ++ String.join (row.map (fun x => f x ++ " ")) ++ "]"

/-- `operator<<(output, mat)`: `'['`, the first `N-1` rows each followed by
`"\n "`, then the loop `for (i = size-1; i < size; i++)` printing the last
row, then `']'` and `'\n'`.  With zero rows the C++ bound `size()-1`
underflows and the row access is out of range, hence `none`. -/
def formatMatrix (f : α → String) (m : Matrix α) : Option String :=
  if m.length = 0 then none
  else some ("[" ++
    String.join ((m.take (m.length - 1)).map (fun row => formatRow f row ++ "\n ")) ++
    String.join ((m.drop (m.length - 1)).map (formatRow f)) ++
    "]" ++ "\n")

/-- `operator<<(output, size)`: `output << "(" << first << ", " << second << ")\n"`. -/
def formatSize (p : Nat × Nat) : String :=
  "(" ++ toString p.1 ++ ", " ++ toString p.2 ++ ")" ++ "\n"

/-- The n×n identity matrix of the spec's algebraic property (C8): 1 on the
diagonal, 0 elsewhere.  It is an input built for the claim, not repo code. -/
def identityMat [Zero α] [One α] (n : Nat) : Matrix α :=
  (List.range n).map (fun i => (List.range n).map (fun j => if i = j then 1 else 0))

end linalg

namespace linalg

section Basic

variable {α : Type}

theorem length_setE (m : Matrix α) (i j : Nat) (v : α) :
    (setE m i j v).length = m.length :=
  List.length_set ..

theorem get?_setE_ne (m : Matrix α) (j : Nat) (v : α) {i i' : Nat} (h : i ≠ i') :
    (setE m i j v).get? i' = m.get? i' := by
  simp [setE, List.get?_eq_getElem?, List.getElem?_set_ne h]

theorem get?_setE_self (j : Nat) (v : α) {m : Matrix α} {i : Nat} (h : i < m.length) :
    (setE m i j v).get? i = some ((m.getD i []).set j v) := by
  simp [setE, List.get?_eq_getElem?, List.getElem?_set_self h]

theorem setE_of_length_le {m : Matrix α} {i : Nat} (j : Nat) (v : α)
    (h : m.length ≤ i) : setE m i j v = m := by
  rw [setE, List.set_eq_of_length_le h]

theorem getD_eq_of_get? {m : Matrix α} {i : Nat} {row : List α}
    (h : m.get? i = some row) : m.getD i [] = row := by
  simp [List.getD_eq_getElem?_getD, ← List.get?_eq_getElem?, h]

theorem rowLen_setE (m : Matrix α) (i j : Nat) (v : α) (i' : Nat) :
    rowLen (setE m i j v) i' = rowLen m i' := by
  rcases Nat.lt_or_ge i m.length with hlt | hge
  · rcases eq_or_ne i i' with rfl | h
    · rw [rowLen, getD_eq_of_get? (get?_setE_self j v hlt), List.length_set]
      rfl
    · rw [rowLen, rowLen]
      congr 1
      simp [List.getD_eq_getElem?_getD, ← List.get?_eq_getElem?, get?_setE_ne m j v h]
  · rw [setE_of_length_le j v hge]

theorem entry_congr_row [Zero α] {m m' : Matrix α} {i : Nat}
    (h : m.get? i = m'.get? i) (j : Nat) : entry m i j = entry m' i j := by
  simp [entry, List.getD_eq_getElem?_getD, ← List.get?_eq_getElem?, h]

theorem rowLen_congr_row {m m' : Matrix α} {i : Nat}
    (h : m.get? i = m'.get? i) : rowLen m i = rowLen m' i := by
  simp [rowLen, List.getD_eq_getElem?_getD, ← List.get?_eq_getElem?, h]

theorem getE_eq_entry [Zero α] {m : Matrix α} {i j : Nat}
    (hi : i < m.length) (hj : j < rowLen m i) :
    getE m i j = some (entry m i j) := by
  have hrow := List.get?_eq_get hi
  rw [rowLen, getD_eq_of_get? hrow] at hj
  rw [getE, entry, hrow, Option.some_bind, getD_eq_of_get? hrow,
    List.get?_eq_get hj, List.getD_eq_getElem?_getD, ← List.get?_eq_getElem?,
    List.get?_eq_get hj]
  rfl

theorem entry_setE_self [Zero α] {m : Matrix α} {i j : Nat} (v : α)
    (hi : i < m.length) (hj : j < rowLen m i) :
    entry (setE m i j v) i j = v := by
  rw [rowLen] at hj
  rw [entry, getD_eq_of_get? (get?_setE_self j v hi), List.getD_eq_getElem?_getD,
    List.getElem?_set_self hj]
  rfl

theorem entry_setE_ne [Zero α] (m : Matrix α) {i j i' j' : Nat} (v : α)
    (h : i ≠ i' ∨ j ≠ j') :
    entry (setE m i j v) i' j' = entry m i' j' := by
  rcases h with h | h
  · exact entry_congr_row (get?_setE_ne m j v h) j'
  · rcases eq_or_ne i i' with rfl | hne
    · rcases Nat.lt_or_ge i m.length with hlt | hge
      · rw [entry, getD_eq_of_get? (get?_setE_self j v hlt), entry]
        rw [List.getD_eq_getElem?_getD ((m.getD i []).set j v),
          List.getElem?_set_ne h, ← List.getD_eq_getElem?_getD]
      · rw [setE_of_length_le j v hge]
    · exact entry_congr_row (get?_setE_ne m j v hne) j'

theorem length_ofDims (r c : Nat) (v : α) : (ofDims r c v).length = r := by
  simp [ofDims]

theorem rowLen_ofDims (r c : Nat) (v : α) {i : Nat} (h : i < r) :
    rowLen (ofDims r c v) i = c := by
  simp [ofDims, rowLen, List.getD_eq_getElem?_getD, List.getElem?_replicate, h]

theorem entry_ofDims_zero [Zero α] (r c : Nat) (i j : Nat) :
    entry (ofDims r c (0 : α)) i j = 0 := by
  simp only [entry, ofDims, List.getD_eq_getElem?_getD, List.getElem?_replicate]
  split_ifs <;> simp

theorem wf_get?0 {m : Matrix α} {r c : Nat} (h : wf m r c) :
    ∃ r0, m.get? 0 = some r0 ∧ r0.length = c := by
  obtain ⟨hlen, hr, hc, hrows⟩ := h
  have h0 : 0 < m.length := by omega
  exact ⟨_, List.get?_eq_get h0, hrows _ (List.get_mem ..)⟩

theorem wf_rowLen {m : Matrix α} {r c : Nat} (h : wf m r c) {i : Nat} (hi : i < r) :
    rowLen m i = c := by
  obtain ⟨hlen, hr, hc, hrows⟩ := h
  have hil : i < m.length := by omega
  rw [rowLen, getD_eq_of_get? (List.get?_eq_get hil)]
  exact hrows _ (List.get_mem ..)

theorem rows_length_of_rowLen {m : Matrix α} {c : Nat}
    (h : ∀ i, i < m.length → rowLen m i = c) : ∀ row ∈ m, row.length = c := by
  intro row hrow
  obtain ⟨n, hn⟩ := List.mem_iff_getElem?.mp hrow
  have hnl : n < m.length := by
    rcases Nat.lt_or_ge n m.length with h1 | h1
    · exact h1
    · rw [List.getElem?_eq_none_iff.mpr h1] at hn; cases hn
  have := h n hnl
  rwa [rowLen, getD_eq_of_get? (by rw [List.get?_eq_getElem?]; exact hn)] at this

theorem grid_ext {m1 m2 : Matrix α} (hl : m1.length = m2.length)
    (hr : ∀ i, i < m1.length → rowLen m1 i = rowLen m2 i)
    (he : ∀ i j, i < m1.length → j < rowLen m1 i → getE m1 i j = getE m2 i j) :
    m1 = m2 := by
  apply List.ext_get?
  intro i
  rcases Nat.lt_or_ge i m1.length with hi | hi
  · have h1 := List.get?_eq_get hi
    have h2 := List.get?_eq_get (l := m2) (hl ▸ hi)
    rw [h1, h2]
    congr 1
    have hrl : (m1.get ⟨i, hi⟩).length = (m2.get ⟨i, hl ▸ hi⟩).length := by
      have := hr i hi
      rwa [rowLen, rowLen, getD_eq_of_get? h1, getD_eq_of_get? h2] at this
    apply List.ext_get?
    intro j
    rcases Nat.lt_or_ge j (m1.get ⟨i, hi⟩).length with hj | hj
    · have := he i j hi (by rw [rowLen, getD_eq_of_get? h1]; exact hj)
      rwa [getE, getE, h1, h2, Option.some_bind, Option.some_bind] at this
    · rw [List.get?_eq_none.mpr hj, List.get?_eq_none.mpr (hrl ▸ hj)]
  · rw [List.get?_eq_none.mpr hi, List.get?_eq_none.mpr (hl ▸ hi)]

end Basic

end linalg

namespace linalg

section MulLoops

variable {α : Type} [AddCommMonoid α] [Mul α]

/-- Inner `j` loop of `operator*` for fixed `i`, `k`: every column entry of
row `i` in the window `[s, s+l)` gains `mat1[i][k] * mat2[k][j]`; everything
else is untouched. -/
theorem mul_jloop (m1 m2 : Matrix α) (i k : Nat)
    (h1i : i < m1.length) (h1k : k < rowLen m1 i) (h2k : k < m2.length) :
    ∀ (l s : Nat) (res : Matrix α),
      i < res.length →
      s + l ≤ rowLen res i →
      s + l ≤ rowLen m2 k →
      ∃ res', List.foldlM (fun res j => mulStep m1 m2 res i k j) res (List.range' s l)
          = some res' ∧
        res'.length = res.length ∧
        (∀ i', rowLen res' i' = rowLen res i') ∧
        (∀ i', i' ≠ i → res'.get? i' = res.get? i') ∧
        (∀ j', s ≤ j' → j' < s + l →
          entry res' i j' = entry res i j' + entry m1 i k * entry m2 k j') ∧
        (∀ j', j' < s ∨ s + l ≤ j' → entry res' i j' = entry res i j') := by
  intro l
  induction l with
  | zero =>
    intro s res hri _ _
    exact ⟨res, rfl, rfl, fun _ => rfl, fun _ _ => rfl,
      fun j' h1 h2 => absurd (Nat.lt_of_le_of_lt h1 h2) (by omega),
      fun _ _ => rfl⟩
  | succ l ih =>
    intro s res hri hrl hm2
    rw [List.range'_succ]
    have hstep : mulStep m1 m2 res i k s =
        some (setE res i s (entry res i s + entry m1 i k * entry m2 k s)) := by
      rw [mulStep, getE_eq_entry h1i h1k, getE_eq_entry h2k (by omega),
        getE_eq_entry hri (by omega)]
      rfl
    rw [List.foldlM_cons, hstep]
    simp only [Option.bind_eq_bind, Option.some_bind]
    obtain ⟨res', hfold, hlen, hrow, hget, hin, hout⟩ :=
      ih (s + 1) (setE res i s (entry res i s + entry m1 i k * entry m2 k s))
        (by rw [length_setE]; exact hri)
        (by rw [rowLen_setE]; omega)
        (by omega)
    refine ⟨res', hfold, ?_, ?_, ?_, ?_, ?_⟩
    · rw [hlen, length_setE]
    · intro i'; rw [hrow, rowLen_setE]
    · intro i' hne
      rw [hget i' hne, get?_setE_ne _ _ _ (fun h => hne h.symm)]
    · intro j' hs hlt
      rcases eq_or_ne j' s with rfl | hne
      · rw [hout j' (Or.inl (by omega)),
          entry_setE_self _ hri (by omega)]
      · rw [hin j' (by omega) (by omega),
          entry_setE_ne _ _ (Or.inr (fun h => hne h.symm))]
    · intro j' hj'
      rcases hj' with hj' | hj'
      · rw [hout j' (Or.inl (by omega)),
          entry_setE_ne _ _ (Or.inr (by omega))]
      · rw [hout j' (Or.inr (by omega)),
          entry_setE_ne _ _ (Or.inr (by omega))]

/-- Middle `k` loop of `operator*` for fixed `i`: row `i` accumulates the
partial dot products `Σ_{t<n} mat1[i][t] * mat2[t][j]` in every column
`j < c`; everything else is untouched. -/
theorem mul_kloop (m1 m2 : Matrix α) (i c : Nat) (h1i : i < m1.length) :
    ∀ (n : Nat) (res : Matrix α),
      n ≤ rowLen m1 i →
      (∀ t, t < n → t < m2.length ∧ c ≤ rowLen m2 t) →
      i < res.length →
      c ≤ rowLen res i →
      ∃ res', List.foldlM (fun res k =>
            List.foldlM (fun res j => mulStep m1 m2 res i k j) res (List.range c))
          res (List.range n) = some res' ∧
        res'.length = res.length ∧
        (∀ i', rowLen res' i' = rowLen res i') ∧
        (∀ i', i' ≠ i → res'.get? i' = res.get? i') ∧
        (∀ j', j' < c → entry res' i j' =
          entry res i j' + ∑ t ∈ Finset.range n, entry m1 i t * entry m2 t j') ∧
        (∀ j', c ≤ j' → entry res' i j' = entry res i j') := by
  intro n
  induction n with
  | zero =>
    intro res _ _ _ _
    exact ⟨res, rfl, rfl, fun _ => rfl, fun _ _ => rfl,
      fun j' _ => by simp, fun _ _ => rfl⟩
  | succ n ih =>
    intro res hn ht hri hrl
    rw [List.range_succ, List.foldlM_append]
    obtain ⟨res1, hfold1, hlen1, hrow1, hget1, hin1, hout1⟩ :=
      ih res (by omega) (fun t htn => ht t (by omega)) hri hrl
    rw [hfold1]
    simp only [Option.bind_eq_bind, Option.some_bind]
    rw [List.foldlM_cons]
    obtain ⟨hn2, hc2⟩ := ht n (by omega)
    have hjl := mul_jloop m1 m2 i n h1i (by omega) hn2 c 0 res1
      (by rw [hlen1]; exact hri)
      (by rw [hrow1]; omega)
      (by omega)
    rw [← List.range_eq_range'] at hjl
    obtain ⟨res2, hfold2, hlen2, hrow2, hget2, hin2, hout2⟩ := hjl
    rw [hfold2]
    simp only [Option.bind_eq_bind, Option.some_bind, List.foldlM_nil]
    refine ⟨res2, rfl, ?_, ?_, ?_, ?_, ?_⟩
    · rw [hlen2, hlen1]
    · intro i'; rw [hrow2, hrow1]
    · intro i' hne; rw [hget2 i' hne, hget1 i' hne]
    · intro j' hj'
      rw [hin2 j' (by omega) (by omega), hin1 j' hj',
        Finset.sum_range_succ, add_assoc]
    · intro j' hj'
      rw [hout2 j' (Or.inr (by omega)), hout1 j' hj']

end MulLoops

end linalg

namespace linalg

section OuterLoop

variable {α : Type} [Zero α] [Add α]

/-- Generic outer `i` loop: if processing row `i` adds `F i j'` to each of its
first `c` entries and touches nothing else, then folding over the first `mrow`
rows adds `F i' j'` to every entry `(i', j')` with `i' < mrow`, `j' < c`. -/
theorem iloop_general (g : Matrix α → Nat → Option (Matrix α)) (F : Nat → Nat → α)
    (M c : Nat)
    (hg : ∀ i res, i < M → i < res.length → c ≤ rowLen res i →
      ∃ res', g res i = some res' ∧
        res'.length = res.length ∧
        (∀ i'', rowLen res' i'' = rowLen res i'') ∧
        (∀ i'', i'' ≠ i → res'.get? i'' = res.get? i'') ∧
        (∀ j', j' < c → entry res' i j' = entry res i j' + F i j') ∧
        (∀ j', c ≤ j' → entry res' i j' = entry res i j')) :
    ∀ (mrow : Nat) (res : Matrix α),
      mrow ≤ M →
      mrow ≤ res.length →
      (∀ i', i' < mrow → c ≤ rowLen res i') →
      ∃ res', List.foldlM g res (List.range mrow) = some res' ∧
        res'.length = res.length ∧
        (∀ i', rowLen res' i' = rowLen res i') ∧
        (∀ i', mrow ≤ i' → res'.get? i' = res.get? i') ∧
        (∀ i' j', i' < mrow → j' < c →
          entry res' i' j' = entry res i' j' + F i' j') ∧
        (∀ i' j', i' < mrow → c ≤ j' → entry res' i' j' = entry res i' j') := by
  intro mrow
  induction mrow with
  | zero =>
    intro res _ _ _
    exact ⟨res, rfl, rfl, fun _ => rfl, fun _ _ => rfl,
      fun i' j' h _ => absurd h (by omega), fun i' j' h _ => absurd h (by omega)⟩
  | succ mrow ih =>
    intro res hM hlen hrl
    rw [List.range_succ, List.foldlM_append]
    obtain ⟨res1, hfold1, hlen1, hrow1, hget1, hin1, hout1⟩ :=
      ih res (by omega) (by omega) (fun i' hi' => hrl i' (by omega))
    rw [hfold1]
    simp only [Option.bind_eq_bind, Option.some_bind, List.foldlM_cons]
    obtain ⟨res2, hstep, hlen2, hrow2, hget2, hin2, hout2⟩ :=
      hg mrow res1 (by omega) (by omega)
        (by rw [hrow1]; exact hrl mrow (by omega))
    rw [hstep]
    simp only [Option.bind_eq_bind, Option.some_bind, List.foldlM_nil]
    refine ⟨res2, rfl, ?_, ?_, ?_, ?_, ?_⟩
    · rw [hlen2, hlen1]
    · intro i'; rw [hrow2, hrow1]
    · intro i' hi'
      rw [hget2 i' (by omega), hget1 i' (by omega)]
    · intro i' j' hi' hj'
      rcases eq_or_ne i' mrow with rfl | hne
      · rw [hin2 j' hj', entry_congr_row (hget1 i' (by omega)) j']
      · rw [entry_congr_row (hget2 i' hne) j', hin1 i' j' (by omega) hj']
    · intro i' j' hi' hj'
      rcases eq_or_ne i' mrow with rfl | hne
      · rw [hout2 j' hj', entry_congr_row (hget1 i' (by omega)) j']
      · rw [entry_congr_row (hget2 i' hne) j', hout1 i' j' (by omega) hj']

end OuterLoop

section MulEq

variable {α : Type} [AddCommMonoid α] [Mul α]

/-- `operator*` on well-formed operands of shapes `(m, n)` and `(n, k)`
returns a grid of shape `(m, k)` whose `(i, j)` entry is
`Σ_{t<n} mat1[i][t] * mat2[t][j]`. -/
theorem mul_eq {m1 m2 : Matrix α} {m n k : Nat}
    (h1 : wf m1 m n) (h2 : wf m2 n k) :
    ∃ res, mul m1 m2 = some res ∧ res.length = m ∧
      (∀ i, i < m → rowLen res i = k) ∧
      (∀ i j, i < m → j < k →
        entry res i j = ∑ t ∈ Finset.range n, entry m1 i t * entry m2 t j) := by
  obtain ⟨r0, hr0, hr0len⟩ := wf_get?0 h1
  obtain ⟨s0, hs0, hs0len⟩ := wf_get?0 h2
  have h1len : m1.length = m := h1.1
  have h2len : m2.length = n := h2.1
  have hne : ¬ (r0.length ≠ m2.length) := by rw [hr0len, h2len]; exact not_not_intro rfl
  rw [mul, hr0]
  simp only [Option.bind_eq_bind, Option.some_bind]
  rw [if_neg hne, hs0]
  simp only [Option.bind_eq_bind, Option.some_bind]
  have hloop := iloop_general
    (fun res i => List.foldlM (fun res k =>
        List.foldlM (fun res j => mulStep m1 m2 res i k j) res (List.range s0.length))
      res (List.range r0.length))
    (fun i j => ∑ t ∈ Finset.range n, entry m1 i t * entry m2 t j)
    m1.length s0.length
    (fun i res hi hri hrl => by
      rw [hr0len]
      exact mul_kloop m1 m2 i s0.length hi n res
        (by have := wf_rowLen h1 (show i < m by omega); omega)
        (fun t ht => ⟨by omega, by have := wf_rowLen h2 ht; omega⟩)
        hri hrl)
    m1.length (ofDims m1.length s0.length 0)
    le_rfl (by rw [length_ofDims]) (fun i' hi' => by rw [rowLen_ofDims _ _ _ hi'])
  obtain ⟨res, hfold, hlen, hrow, _, hin, _⟩ := hloop
  refine ⟨res, hfold, ?_, ?_, ?_⟩
  · rw [hlen, length_ofDims, h1len]
  · intro i hi
    rw [hrow, rowLen_ofDims _ _ _ (by omega : i < m1.length), hs0len]
  · intro i j hi hj
    rw [hin i j (by omega) (by rw [hs0len]; omega), entry_ofDims_zero, zero_add]

end MulEq

end linalg

namespace linalg

section OrigLoops

variable {α : Type} [AddCommMonoid α] [Mul α]

/-- Innermost `k` loop of the original `operator*` for fixed `i`, `j`: the
single cell `(i, j)` accumulates the full dot product; all else untouched. -/
theorem orig_kloop (m1 m2 : Matrix α) (i j : Nat) (h1i : i < m1.length) :
    ∀ (n : Nat) (res : Matrix α),
      n ≤ rowLen m1 i →
      (∀ t, t < n → t < m2.length ∧ j < rowLen m2 t) →
      i < res.length →
      j < rowLen res i →
      ∃ res', List.foldlM (fun res k => mulStep m1 m2 res i k j) res (List.range n)
          = some res' ∧
        res'.length = res.length ∧
        (∀ i', rowLen res' i' = rowLen res i') ∧
        (∀ i', i' ≠ i → res'.get? i' = res.get? i') ∧
        (∀ j', j' ≠ j → entry res' i j' = entry res i j') ∧
        entry res' i j = entry res i j + ∑ t ∈ Finset.range n, entry m1 i t * entry m2 t j := by
  intro n
  induction n with
  | zero =>
    intro res _ _ _ _
    exact ⟨res, rfl, rfl, fun _ => rfl, fun _ _ => rfl, fun _ _ => rfl, by simp⟩
  | succ n ih =>
    intro res hn ht hri hrl
    rw [List.range_succ, List.foldlM_append]
    obtain ⟨res1, hfold1, hlen1, hrow1, hget1, hoth1, hacc1⟩ :=
      ih res (by omega) (fun t htn => ht t (by omega)) hri hrl
    rw [hfold1]
    simp only [Option.bind_eq_bind, Option.some_bind, List.foldlM_cons]
    obtain ⟨hn2, hj2⟩ := ht n (by omega)
    have hstep : mulStep m1 m2 res1 i n j =
        some (setE res1 i j (entry res1 i j + entry m1 i n * entry m2 n j)) := by
      rw [mulStep, getE_eq_entry h1i (by omega), getE_eq_entry hn2 hj2,
        getE_eq_entry (by omega) (by rw [hrow1]; omega)]
      rfl
    rw [hstep]
    simp only [Option.bind_eq_bind, Option.some_bind, List.foldlM_nil]
    refine ⟨_, rfl, ?_, ?_, ?_, ?_, ?_⟩
    · rw [length_setE, hlen1]
    · intro i'; rw [rowLen_setE, hrow1]
    · intro i' hne
      rw [get?_setE_ne _ _ _ (fun h => hne h.symm), hget1 i' hne]
    · intro j' hne
      rw [entry_setE_ne _ _ (Or.inr (fun h => hne h.symm)), hoth1 j' hne]
    · rw [entry_setE_self _ (by omega) (by rw [hrow1]; omega), hacc1,
        Finset.sum_range_succ, add_assoc]

/-- Middle `j` loop of the original `operator*` for fixed `i`: every column
`j' < cc` of row `i` gains the full dot product; all else untouched. -/
theorem orig_jloop (m1 m2 : Matrix α) (i n : Nat) (h1i : i < m1.length)
    (hn : n ≤ rowLen m1 i) :
    ∀ (cc : Nat) (res : Matrix α),
      (∀ t, t < n → t < m2.length ∧ cc ≤ rowLen m2 t) →
      i < res.length →
      cc ≤ rowLen res i →
      ∃ res', List.foldlM (fun res j =>
            List.foldlM (fun res k => mulStep m1 m2 res i k j) res (List.range n))
          res (List.range cc) = some res' ∧
        res'.length = res.length ∧
        (∀ i', rowLen res' i' = rowLen res i') ∧
        (∀ i', i' ≠ i → res'.get? i' = res.get? i') ∧
        (∀ j', j' < cc → entry res' i j' =
          entry res i j' + ∑ t ∈ Finset.range n, entry m1 i t * entry m2 t j') ∧
        (∀ j', cc ≤ j' → entry res' i j' = entry res i j') := by
  intro cc
  induction cc with
  | zero =>
    intro res _ _ _
    exact ⟨res, rfl, rfl, fun _ => rfl, fun _ _ => rfl,
      fun j' h => absurd h (by omega), fun _ _ => rfl⟩
  | succ cc ih =>
    intro res ht hri hrl
    rw [List.range_succ, List.foldlM_append]
    obtain ⟨res1, hfold1, hlen1, hrow1, hget1, hin1, hout1⟩ :=
      ih res (fun t htn => ⟨(ht t htn).1, by have := (ht t htn).2; omega⟩)
        hri (by omega)
    rw [hfold1]
    simp only [Option.bind_eq_bind, Option.some_bind, List.foldlM_cons]
    obtain ⟨res2, hfold2, hlen2, hrow2, hget2, hoth2, hacc2⟩ :=
      orig_kloop m1 m2 i cc h1i n res1 hn
        (fun t htn => ⟨(ht t htn).1, by have := (ht t htn).2; omega⟩)
        (by omega) (by rw [hrow1]; omega)
    rw [hfold2]
    simp only [Option.bind_eq_bind, Option.some_bind, List.foldlM_nil]
    refine ⟨res2, rfl, ?_, ?_, ?_, ?_, ?_⟩
    · rw [hlen2, hlen1]
    · intro i'; rw [hrow2, hrow1]
    · intro i' hne; rw [hget2 i' hne, hget1 i' hne]
    · intro j' hj'
      rcases eq_or_ne j' cc with rfl | hne
      · rw [hacc2, hout1 j' (by omega)]
      · rw [hoth2 j' hne, hin1 j' (by omega)]
    · intro j' hj'
      rw [hoth2 j' (by omega), hout1 j' (by omega)]

/-- The original `operator*` computes the same entry-wise sums. -/
theorem mulOrig_eq {m1 m2 : Matrix α} {m n k : Nat}
    (h1 : wf m1 m n) (h2 : wf m2 n k) :
    ∃ res, mulOrig m1 m2 = some res ∧ res.length = m ∧
      (∀ i, i < m → rowLen res i = k) ∧
      (∀ i j, i < m → j < k →
        entry res i j = ∑ t ∈ Finset.range n, entry m1 i t * entry m2 t j) := by
  obtain ⟨r0, hr0, hr0len⟩ := wf_get?0 h1
  obtain ⟨s0, hs0, hs0len⟩ := wf_get?0 h2
  have h1len : m1.length = m := h1.1
  have h2len : m2.length = n := h2.1
  have hne : ¬ (r0.length ≠ m2.length) := by rw [hr0len, h2len]; exact not_not_intro rfl
  rw [mulOrig, hr0]
  simp only [Option.bind_eq_bind, Option.some_bind]
  rw [if_neg hne, hs0]
  simp only [Option.bind_eq_bind, Option.some_bind]
  have hloop := iloop_general
    (fun res i => List.foldlM (fun res j =>
        List.foldlM (fun res k => mulStep m1 m2 res i k j) res (List.range r0.length))
      res (List.range s0.length))
    (fun i j => ∑ t ∈ Finset.range n, entry m1 i t * entry m2 t j)
    m1.length s0.length
    (fun i res hi hri hrl => by
      rw [hr0len]
      exact orig_jloop m1 m2 i n hi
        (by have := wf_rowLen h1 (show i < m by omega); omega)
        s0.length res
        (fun t ht => ⟨by omega, by have := wf_rowLen h2 ht; omega⟩)
        hri hrl)
    m1.length (ofDims m1.length s0.length 0)
    le_rfl (by rw [length_ofDims]) (fun i' hi' => by rw [rowLen_ofDims _ _ _ hi'])
  obtain ⟨res, hfold, hlen, hrow, _, hin, _⟩ := hloop
  refine ⟨res, hfold, ?_, ?_, ?_⟩
  · rw [hlen, length_ofDims, h1len]
  · intro i hi
    rw [hrow, rowLen_ofDims _ _ _ (by omega : i < m1.length), hs0len]
  · intro i j hi hj
    rw [hin i j (by omega) (by rw [hs0len]; omega), entry_ofDims_zero, zero_add]

end OrigLoops

end linalg

namespace linalg

section TransposeLoops

variable {α : Type} [Zero α]

/-- Inner `j` loop of `transpose` for fixed `i`: writes `res[j][i] = m[i][j]`
for `j` in the window `[s, s+l)`; everything else is untouched. -/
theorem transpose_jloop (m : Matrix α) (i : Nat) (hi : i < m.length) :
    ∀ (l s : Nat) (res : Matrix α),
      s + l ≤ rowLen m i →
      s + l ≤ res.length →
      (∀ j, s ≤ j → j < s + l → i < rowLen res j) →
      ∃ res', List.foldlM (fun res j => transposeStep m res i j) res (List.range' s l)
          = some res' ∧
        res'.length = res.length ∧
        (∀ i', rowLen res' i' = rowLen res i') ∧
        (∀ j' i', i' ≠ i → entry res' j' i' = entry res j' i') ∧
        (∀ j', j' < s ∨ s + l ≤ j' → res'.get? j' = res.get? j') ∧
        (∀ j', s ≤ j' → j' < s + l → entry res' j' i = entry m i j') := by
  intro l
  induction l with
  | zero =>
    intro s res _ _ _
    exact ⟨res, rfl, rfl, fun _ => rfl, fun _ _ _ => rfl, fun _ _ => rfl,
      fun j' h1 h2 => absurd (Nat.lt_of_le_of_lt h1 h2) (by omega)⟩
  | succ l ih =>
    intro s res hml hrl hcol
    rw [List.range'_succ]
    have hstep : transposeStep m res i s = some (setE res s i (entry m i s)) := by
      rw [transposeStep, getE_eq_entry hi (by omega)]
      rfl
    rw [List.foldlM_cons, hstep]
    simp only [Option.bind_eq_bind, Option.some_bind]
    obtain ⟨res', hfold, hlen, hrow, hcoth, hget, hwin⟩ :=
      ih (s + 1) (setE res s i (entry m i s))
        (by omega)
        (by rw [length_setE]; omega)
        (fun j h1 h2 => by rw [rowLen_setE]; exact hcol j (by omega) (by omega))
    refine ⟨res', hfold, ?_, ?_, ?_, ?_, ?_⟩
    · rw [hlen, length_setE]
    · intro i'; rw [hrow, rowLen_setE]
    · intro j' i' hne
      rw [hcoth j' i' hne, entry_setE_ne _ _ (Or.inr (fun h => hne h.symm))]
    · intro j' hj'
      rcases hj' with hj' | hj'
      · rw [hget j' (Or.inl (by omega)), get?_setE_ne _ _ _ (by omega)]
      · rw [hget j' (Or.inr (by omega)), get?_setE_ne _ _ _ (by omega)]
    · intro j' h1 h2
      rcases eq_or_ne j' s with rfl | hne
      · rw [entry_congr_row (hget j' (Or.inl (by omega))) i,
          entry_setE_self _ (by omega) (hcol j' (by omega) (by omega))]
      · exact hwin j' (by omega) (by omega)

/-- Outer `i` loop of `transpose`: after the first `mrow` source rows,
`res[j][i] = m[i][j]` for every `i < mrow`, `j < c`. -/
theorem transpose_iloop (m : Matrix α) (c : Nat) :
    ∀ (mrow : Nat) (res : Matrix α),
      mrow ≤ m.length →
      (∀ i, i < mrow → c ≤ rowLen m i) →
      c ≤ res.length →
      (∀ j, j < c → mrow ≤ rowLen res j) →
      ∃ res', List.foldlM (fun res i =>
            List.foldlM (fun res j => transposeStep m res i j) res (List.range c))
          res (List.range mrow) = some res' ∧
        res'.length = res.length ∧
        (∀ i', rowLen res' i' = rowLen res i') ∧
        (∀ j' i', i' < mrow → j' < c → entry res' j' i' = entry m i' j') ∧
        (∀ j' i', mrow ≤ i' → entry res' j' i' = entry res j' i') ∧
        (∀ j', c ≤ j' → res'.get? j' = res.get? j') := by
  intro mrow
  induction mrow with
  | zero =>
    intro res _ _ _ _
    exact ⟨res, rfl, rfl, fun _ => rfl,
      fun j' i' h _ => absurd h (by omega), fun _ _ _ => rfl, fun _ _ => rfl⟩
  | succ mrow ih =>
    intro res hm hmc hcl hrow
    rw [List.range_succ, List.foldlM_append]
    obtain ⟨res1, hfold1, hlen1, hrow1, hin1, hcol1, hget1⟩ :=
      ih res (by omega) (fun i hi => hmc i (by omega)) hcl
        (fun j hj => by have := hrow j hj; omega)
    rw [hfold1]
    simp only [Option.bind_eq_bind, Option.some_bind, List.foldlM_cons]
    have hjl := transpose_jloop m mrow (by omega) c 0 res1
      (by have := hmc mrow (by omega); omega)
      (by omega)
      (fun j _ hj => by rw [hrow1]; have := hrow j (by omega); omega)
    rw [← List.range_eq_range'] at hjl
    obtain ⟨res2, hfold2, hlen2, hrow2, hcoth2, hget2, hwin2⟩ := hjl
    rw [hfold2]
    simp only [Option.bind_eq_bind, Option.some_bind, List.foldlM_nil]
    refine ⟨res2, rfl, ?_, ?_, ?_, ?_, ?_⟩
    · rw [hlen2, hlen1]
    · intro i'; rw [hrow2, hrow1]
    · intro j' i' hi' hj'
      rcases eq_or_ne i' mrow with rfl | hne
      · exact hwin2 j' (by omega) (by omega)
      · rw [hcoth2 j' i' hne, hin1 j' i' (by omega) hj']
    · intro j' i' hi'
      rw [hcoth2 j' i' (by omega), hcol1 j' i' (by omega)]
    · intro j' hj'
      rw [hget2 j' (Or.inr (by omega)), hget1 j' hj']

/-- `transpose` on a well-formed `(r, c)` matrix returns a `(c, r)` grid with
`res[j][i] = m[i][j]`. -/
theorem transpose_eq {m : Matrix α} {r c : Nat} (h : wf m r c) :
    ∃ res, transpose m = some res ∧ res.length = c ∧
      (∀ j, j < c → rowLen res j = r) ∧
      (∀ i j, i < r → j < c → entry res j i = entry m i j) := by
  obtain ⟨r0, hr0, hr0len⟩ := wf_get?0 h
  have hlen : m.length = r := h.1
  rw [transpose, hr0]
  simp only [Option.bind_eq_bind, Option.some_bind]
  obtain ⟨res, hfold, hreslen, hresrow, hin, _, _⟩ :=
    transpose_iloop m r0.length m.length (ofDims r0.length m.length 0)
      le_rfl
      (fun i hi => by have := wf_rowLen h (show i < r by omega); omega)
      (by rw [length_ofDims])
      (fun j hj => by rw [rowLen_ofDims _ _ _ hj])
  refine ⟨res, hfold, ?_, ?_, ?_⟩
  · rw [hreslen, length_ofDims, hr0len]
  · intro j hj
    rw [hresrow, rowLen_ofDims _ _ _ (by omega : j < r0.length), hlen]
  · intro i j hi hj
    exact hin j i (by omega) (by omega)

end TransposeLoops

end linalg

namespace linalg

section ConstructEq

variable {α : Type}

/-- The adjacent-pairwise check accepts exactly the grids whose rows all have
the head row's length. -/
theorem adjacentOk_cons_iff (x : List α) (xs : Matrix α) :
    adjacentOk (x :: xs) = true ↔ ∀ r ∈ x :: xs, r.length = x.length := by
  induction xs generalizing x with
  | nil => simp [adjacentOk]
  | cons b rest ih =>
    rw [adjacentOk]
    simp only [Bool.and_eq_true, beq_iff_eq, ih b]
    constructor
    · rintro ⟨hxb, hall⟩ r hr
      rcases List.mem_cons.mp hr with rfl | hr
      · rfl
      · rw [hall r hr, hxb]
    · intro hall
      refine ⟨(hall b (by simp)).symm, fun r hr => ?_⟩
      rw [hall r (List.mem_cons_of_mem x hr), hall b (by simp)]

/-- Pairwise form: adjacent-lengths-equal is the same as any-two-lengths-equal. -/
theorem adjacentOk_iff_pairwise (m : Matrix α) :
    adjacentOk m = true ↔ ∀ r1 ∈ m, ∀ r2 ∈ m, r1.length = r2.length := by
  cases m with
  | nil => simp [adjacentOk]
  | cons x xs =>
    rw [adjacentOk_cons_iff]
    constructor
    · intro h r1 h1 r2 h2
      rw [h r1 h1, h r2 h2]
    · intro h r hr
      exact h r hr x (by simp)

/-- `operator==` on well-formed matrices decides exactly
"identical shape and identical corresponding entries". -/
theorem eqMat_iff_shape_entries [DecidableEq α] {m1 m2 : Matrix α}
    {r1 c1 r2 c2 : Nat} (h1 : wf m1 r1 c1) (h2 : wf m2 r2 c2) :
    eqMat m1 m2 = true ↔
      (r1 = r2 ∧ c1 = c2 ∧
        ∀ i j, i < r1 → j < c1 → getE m1 i j = getE m2 i j) := by
  rw [eqMat, decide_eq_true_iff]
  constructor
  · intro heq
    subst heq
    refine ⟨by rw [← h1.1, ← h2.1], ?_, fun i j _ _ => rfl⟩
    have e1 := wf_rowLen h1 h1.2.1
    have e2 := wf_rowLen h2 h2.2.1
    rw [e1] at e2
    exact e2
  · rintro ⟨hr, hc, he⟩
    apply grid_ext
    · rw [h1.1, h2.1, hr]
    · intro i hi
      have hi1 : i < r1 := by have := h1.1; omega
      have hi2 : i < r2 := by omega
      rw [wf_rowLen h1 hi1, wf_rowLen h2 hi2, hc]
    · intro i j hi hj
      rw [h1.1] at hi
      rw [wf_rowLen h1 hi] at hj
      exact he i j hi hj

end ConstructEq

section Format

theorem join_cons (x : String) (l : List String) :
    String.join (x :: l) = x ++ String.join l := by
  show List.foldl (fun r s => r ++ s) ("" ++ x) l
      = x ++ List.foldl (fun r s => r ++ s) "" l
  rw [String.empty_append]
  have key : ∀ (l : List String) (y : String),
      List.foldl (fun r s => r ++ s) y l
        = y ++ List.foldl (fun r s => r ++ s) "" l := by
    intro l
    induction l with
    | nil => intro y; simp [String.append_empty]
    | cons a tail ih =>
      intro y
      rw [List.foldl_cons, List.foldl_cons, ih (y ++ a), ih ("" ++ a),
        String.empty_append, String.append_assoc]
  exact key l x

/-- The two row-printing loops of `operator<<` concatenate to the rows'
renderings joined by the separator `"\n "`. -/
theorem format_body_eq {α : Type} (f : α → String) :
    ∀ (m : Matrix α), m ≠ [] →
      String.join ((m.take (m.length - 1)).map (fun row => formatRow f row ++ "\n ")) ++
        String.join ((m.drop (m.length - 1)).map (formatRow f)) =
      String.join (List.intersperse "\n " (m.map (formatRow f))) := by
  intro m
  induction m with
  | nil => intro h; exact absurd rfl h
  | cons a tail ih =>
    intro _
    cases tail with
    | nil =>
      have hjn : String.join ([] : List String) = "" := rfl
      simp [join_cons, hjn, String.append_empty, String.empty_append]
    | cons b rest =>
      have hlen : (a :: b :: rest).length - 1 = rest.length + 1 := by simp
      have ihx := ih (by simp)
      have hlen2 : (b :: rest).length - 1 = rest.length := by simp
      rw [hlen2] at ihx
      rw [hlen, List.take_succ_cons, List.drop_succ_cons, List.map_cons,
        join_cons, String.append_assoc, ihx]
      simp only [List.map_cons, List.intersperse_cons_cons, join_cons,
        String.append_assoc]

/-- The stream output of a nonempty matrix: outer brackets around the rows'
renderings joined by newline-plus-alignment-space, then a final newline. -/
theorem formatMatrix_eq_intersperse {α : Type} (f : α → String) (m : Matrix α)
    (h : m ≠ []) :
    formatMatrix f m = some ("[" ++
      String.join (List.intersperse "\n " (m.map (formatRow f))) ++ "]" ++ "\n") := by
  rw [formatMatrix, if_neg (by rw [List.length_eq_zero]; exact h),
    ← format_body_eq f m h]
  simp only [String.append_assoc]

end Format

end linalg

namespace linalg

section IdentityLemmas

variable {α : Type}

theorem length_identityMat [Zero α] [One α] (n : Nat) :
    (identityMat (α := α) n).length = n := by
  simp [identityMat]

theorem wf_identityMat [Zero α] [One α] {n : Nat} (hn : 0 < n) :
    wf (identityMat (α := α) n) n n := by
  refine ⟨length_identityMat n, hn, hn, ?_⟩
  intro row hrow
  rw [identityMat] at hrow
  obtain ⟨i, _, rfl⟩ := List.mem_map.mp hrow
  simp

theorem entry_identityMat [Zero α] [One α] {n t j : Nat} (ht : t < n) (hj : j < n) :
    entry (identityMat (α := α) n) t j = if t = j then 1 else 0 := by
  simp only [entry, identityMat, List.getD_eq_getElem?_getD, List.getElem?_map,
    List.getElem?_range ht, List.getElem?_range hj, Option.map_some',
    Option.getD_some]

end IdentityLemmas

/-- C1: for `lhs` of shape `(m, n)` and `rhs` of shape `(n, k)`, `operator*`
returns a matrix of shape `(m, k)` in which
`result[i][j] = Σ_{t=0..n-1} lhs[i][t] * rhs[t][j]`, accumulated with the
element type's addition starting from its additive identity (the result grid
is seeded with 0 and the loop adds the products in order of increasing `t`). -/
theorem C1_mul_correct {α : Type} [AddCommMonoid α] [Mul α]
    {m1 m2 : Matrix α} {m n k : Nat} (h1 : wf m1 m n) (h2 : wf m2 n k) :
    ∃ res, mul m1 m2 = some res ∧ res.length = m ∧
      (∀ row ∈ res, row.length = k) ∧
      (∀ i j, i < m → j < k →
        getE res i j = some (∑ t ∈ Finset.range n, entry m1 i t * entry m2 t j)) := by
  obtain ⟨res, hres, hlen, hrow, hent⟩ := mul_eq h1 h2
  refine ⟨res, hres, hlen, ?_, ?_⟩
  · exact rows_length_of_rowLen (fun i hi => hrow i (by rw [hlen] at hi; exact hi))
  · intro i j hi hj
    rw [getE_eq_entry (by rw [hlen]; exact hi) (by rw [hrow i hi]; exact hj),
      hent i j hi hj]

/-- Witness for C1 at the spec's own example
`[[1,2],[3,4]] * [[5,6],[7,8]]` (sums evaluate to `[[19,22],[43,50]]`). -/
theorem C1_witness :
    wf ([[1,2],[3,4]] : Matrix ℤ) 2 2 ∧ wf ([[5,6],[7,8]] : Matrix ℤ) 2 2 ∧
    (∃ res, mul ([[1,2],[3,4]] : Matrix ℤ) [[5,6],[7,8]] = some res ∧
      res.length = 2 ∧ (∀ row ∈ res, row.length = 2) ∧
      (∀ i j, i < 2 → j < 2 →
        getE res i j = some (∑ t ∈ Finset.range 2,
          entry ([[1,2],[3,4]] : Matrix ℤ) i t * entry ([[5,6],[7,8]] : Matrix ℤ) t j))) :=
  ⟨by decide, by decide, C1_mul_correct (by decide) (by decide)⟩

/-- C2 counterexample: two of the four construction forms complete
successfully yet violate the claimed minimum-1×1 shape — `Matrix(0, 3, 0)`
yields a grid with zero rows, and the flat-sequence constructor applied to an
empty vector yields one row of zero columns. -/
theorem C2_counterexample :
    ofDims 0 3 (0 : ℤ) = [] ∧
    ¬ (0 < (ofDims 0 3 (0 : ℤ)).length) ∧
    ofVec ([] : List ℤ) = [[]] ∧
    ¬ (∀ row ∈ ofVec ([] : List ℤ), 0 < row.length) := by
  decide

/-- C2 amended: every construction form yields a grid whose rows all have
identical length — the scalar form exactly 1×1, the flat form exactly
1×N, the `(rows, cols, fill)` form exactly rows×cols, and a successful
nested construction keeps its input — but the minimum-1×1 bound fails in
general: the flat form with an empty sequence yields 1×0 and the
`(rows, cols, fill)` form accepts zero rows or zero columns. -/
theorem C2_amended {α : Type} :
    (∀ v : α, ofScalar v = [[v]]) ∧
    (∀ xs : List α, (ofVec xs).length = 1 ∧
      ∀ row ∈ ofVec xs, row.length = xs.length) ∧
    (∀ (r c : Nat) (v : α), (ofDims r c v).length = r ∧
      ∀ row ∈ ofDims r c v, row.length = c) ∧
    (∀ m mr : Matrix α, ofNested m = some mr →
      ∀ r1 ∈ mr, ∀ r2 ∈ mr, r1.length = r2.length) := by
  refine ⟨fun v => rfl, fun xs => ⟨rfl, ?_⟩, fun r c v => ⟨length_ofDims .., ?_⟩, ?_⟩
  · intro row h
    rw [ofVec, List.mem_singleton] at h
    rw [h]
  · intro row h
    rw [ofDims] at h
    rw [List.eq_of_mem_replicate h, List.length_replicate]
  · intro m mr h r1 h1 r2 h2
    rw [ofNested] at h
    by_cases hok : adjacentOk m
    · rw [if_pos hok, Option.some_inj] at h
      subst h
      exact (adjacentOk_iff_pairwise _).mp hok r1 h1 r2 h2
    · rw [if_neg hok] at h
      cases h

/-- Witness for C2's amended claim at concrete inputs. -/
theorem C2_amended_witness :
    ofScalar (7 : ℤ) = [[7]] ∧ (ofDims 2 3 (0 : ℤ)).length = 2 ∧
    ([(1 : ℤ), 2].length = [(3 : ℤ), 4].length) :=
  ⟨C2_amended.1 7, (C2_amended.2.2.1 2 3 0).1,
    C2_amended.2.2.2 [[1, 2], [3, 4]] [[1, 2], [3, 4]] rfl
      [1, 2] (by decide) [3, 4] (by decide)⟩

/-- C3: whenever `lhs.cols != rhs.rows` (the first row of `lhs` exists and
its length differs from the row count of `rhs`), `operator*` aborts and
returns no matrix at all. -/
theorem C3_mul_dim_mismatch {α : Type} [Mul α] [Add α] [Zero α]
    {m1 m2 : Matrix α} {l : List α} (h0 : m1.get? 0 = some l)
    (hne : l.length ≠ m2.length) :
    mul m1 m2 = none := by
  rw [mul, h0]
  simp only [Option.bind_eq_bind, Option.some_bind]
  rw [if_pos hne]

/-- Witness for C3 at the spec's own example: `(1,3) * (1,3)` aborts. -/
theorem C3_witness : mul ([[1,2,3]] : Matrix ℤ) [[1,2,3]] = none :=
  C3_mul_dim_mismatch rfl (by decide)

/-- C4: nested-sequence construction fails (returns no matrix) when any two
rows differ in length — the adjacent-pairwise check suffices because length
equality is transitive — and succeeds, returning exactly the input grid
(hence shape R×C), when all rows have equal length. -/
theorem C4_nested_validation {α : Type} :
    (∀ m : Matrix α, (∃ r1 ∈ m, ∃ r2 ∈ m, r1.length ≠ r2.length) →
      ofNested m = none) ∧
    (∀ m : Matrix α, (∀ r1 ∈ m, ∀ r2 ∈ m, r1.length = r2.length) →
      ofNested m = some m) := by
  constructor
  · rintro m ⟨r1, h1, r2, h2, hne⟩
    rw [ofNested, if_neg]
    intro hok
    exact hne ((adjacentOk_iff_pairwise m).mp hok r1 h1 r2 h2)
  · intro m h
    rw [ofNested, if_pos ((adjacentOk_iff_pairwise m).mpr h)]

/-- Witness for C4 at the spec's own examples: `[[1,2],[3,4,5]]` is rejected
and `[[1,2,3],[4,5,6]]` is accepted. -/
theorem C4_witness :
    ofNested ([[1,2],[3,4,5]] : Matrix ℤ) = none ∧
    ofNested ([[1,2,3],[4,5,6]] : Matrix ℤ) = some [[1,2,3],[4,5,6]] :=
  ⟨C4_nested_validation.1 _ ⟨[1,2], by decide, [3,4,5], by decide, by decide⟩,
    C4_nested_validation.2 _ (by decide)⟩

/-- C5: `transpose` on an `(r, c)` matrix returns a new `(c, r)` matrix with
`result[j][i] = m[i][j]`; the receiver is passed and read only — the
embedding returns a fresh grid and leaves `m` untouched by construction. -/
theorem C5_transpose_correct {α : Type} [Zero α] {m : Matrix α} {r c : Nat}
    (h : wf m r c) :
    ∃ res, transpose m = some res ∧ res.length = c ∧
      (∀ row ∈ res, row.length = r) ∧
      (∀ i j, i < r → j < c → getE res j i = getE m i j) := by
  obtain ⟨res, hres, hlen, hrow, hent⟩ := transpose_eq h
  refine ⟨res, hres, hlen, ?_, ?_⟩
  · exact rows_length_of_rowLen (fun j hj => hrow j (by rw [hlen] at hj; exact hj))
  · intro i j hi hj
    rw [getE_eq_entry (by rw [hlen]; exact hj) (by rw [hrow j hj]; exact hi),
      getE_eq_entry (by rw [h.1]; exact hi) (by rw [wf_rowLen h hi]; exact hj),
      hent i j hi hj]

/-- Witness for C5 at the spec's own example `transpose([[1,2,3],[4,5,6]])`. -/
theorem C5_witness :
    wf ([[1,2,3],[4,5,6]] : Matrix ℤ) 2 3 ∧
    (∃ res, transpose ([[1,2,3],[4,5,6]] : Matrix ℤ) = some res ∧
      res.length = 3 ∧ (∀ row ∈ res, row.length = 2) ∧
      (∀ i j, i < 2 → j < 3 →
        getE res j i = getE ([[1,2,3],[4,5,6]] : Matrix ℤ) i j)) :=
  ⟨by decide, C5_transpose_correct (by decide)⟩

end linalg

namespace linalg

/-- C6: `operator==` returns true iff the matrices have identical shape and
every corresponding element compares equal, and false otherwise (it is a
total boolean — shape mismatch yields `false`, not an error); `isSame`
returns exactly the same boolean as `operator==`. -/
theorem C6_equality {α : Type} [DecidableEq α] {m1 m2 : Matrix α}
    {r1 c1 r2 c2 : Nat} (h1 : wf m1 r1 c1) (h2 : wf m2 r2 c2) :
    (eqMat m1 m2 = true ↔
      (r1 = r2 ∧ c1 = c2 ∧
        ∀ i j, i < r1 → j < c1 → getE m1 i j = getE m2 i j)) ∧
    isSame m1 m2 = eqMat m1 m2 :=
  ⟨eqMat_iff_shape_entries h1 h2, rfl⟩

/-- Witness for C6 on a concrete pair of equal 2×2 matrices. -/
theorem C6_witness :
    (eqMat ([[1,2],[3,4]] : Matrix ℤ) [[1,2],[3,4]] = true ↔
      ((2 : Nat) = 2 ∧ (2 : Nat) = 2 ∧
        ∀ i j, i < 2 → j < 2 →
          getE ([[1,2],[3,4]] : Matrix ℤ) i j =
          getE ([[1,2],[3,4]] : Matrix ℤ) i j)) ∧
    isSame ([[1,2],[3,4]] : Matrix ℤ) [[1,2],[3,4]] =
      eqMat ([[1,2],[3,4]] : Matrix ℤ) [[1,2],[3,4]] :=
  C6_equality (by decide) (by decide)

/-- C7: the shipped loop ordering of `operator*` (rows, then the shared
dimension, then columns, accumulating incrementally) returns exactly the
same matrix as the original commented-out implementation that computes each
cell's full dot product with the shared-dimension loop innermost. -/
theorem C7_loop_order_equiv {α : Type} [AddCommMonoid α] [Mul α]
    {m1 m2 : Matrix α} {m n k : Nat} (h1 : wf m1 m n) (h2 : wf m2 n k) :
    mul m1 m2 = mulOrig m1 m2 := by
  obtain ⟨res1, hr1, hl1, hrow1, he1⟩ := mul_eq h1 h2
  obtain ⟨res2, hr2, hl2, hrow2, he2⟩ := mulOrig_eq h1 h2
  rw [hr1, hr2]
  congr 1
  apply grid_ext
  · rw [hl1, hl2]
  · intro i hi
    have him : i < m := by rw [hl1] at hi; exact hi
    rw [hrow1 i him, hrow2 i him]
  · intro i j hi hj
    have him : i < m := by rw [hl1] at hi; exact hi
    have hjk : j < k := by rw [hrow1 i him] at hj; exact hj
    rw [getE_eq_entry (by rw [hl1]; exact him) (by rw [hrow1 i him]; exact hjk),
      getE_eq_entry (by rw [hl2]; exact him) (by rw [hrow2 i him]; exact hjk),
      he1 i j him hjk, he2 i j him hjk]

/-- Witness for C7 on the spec's 2×2 example. -/
theorem C7_witness :
    mul ([[1,2],[3,4]] : Matrix ℤ) [[5,6],[7,8]] =
      mulOrig ([[1,2],[3,4]] : Matrix ℤ) [[5,6],[7,8]] :=
  C7_loop_order_equiv (m := 2) (n := 2) (k := 2) (by decide) (by decide)

/-- C8: multiplying any well-formed matrix of shape `(r, n)` by the n×n
identity matrix (1 on the diagonal, 0 elsewhere) returns exactly the
original matrix. -/
theorem C8_mul_identity {α : Type} [NonAssocSemiring α] {m1 : Matrix α}
    {r n : Nat} (h : wf m1 r n) :
    mul m1 (identityMat n) = some m1 := by
  have hid : wf (identityMat (α := α) n) n n := wf_identityMat h.2.2.1
  obtain ⟨res, hres, hlen, hrow, hent⟩ := mul_eq h hid
  rw [hres]
  congr 1
  apply grid_ext
  · rw [hlen, h.1]
  · intro i hi
    have hir : i < r := by rw [hlen] at hi; exact hi
    rw [hrow i hir, wf_rowLen h hir]
  · intro i j hi hj
    have hir : i < r := by rw [hlen] at hi; exact hi
    have hjn : j < n := by rw [hrow i hir] at hj; exact hj
    rw [getE_eq_entry (by rw [hlen]; exact hir) (by rw [hrow i hir]; exact hjn),
      getE_eq_entry (by rw [h.1]; exact hir) (by rw [wf_rowLen h hir]; exact hjn),
      hent i j hir hjn]
    congr 1
    have hcong : ∀ t ∈ Finset.range n,
        entry m1 i t * entry (identityMat (α := α) n) t j =
        if t = j then entry m1 i j else 0 := by
      intro t htr
      rw [entry_identityMat (Finset.mem_range.mp htr) hjn]
      by_cases he : t = j
      · subst he
        rw [if_pos rfl, if_pos rfl, mul_one]
      · rw [if_neg he, if_neg he, mul_zero]
    rw [Finset.sum_congr rfl hcong,
      Finset.sum_ite_eq' (Finset.range n) j (fun _ => entry m1 i j),
      if_pos (Finset.mem_range.mpr hjn)]

/-- Witness for C8 on a concrete 2×2 matrix. -/
theorem C8_witness :
    mul ([[1,2],[3,4]] : Matrix ℤ) (identityMat 2) = some [[1,2],[3,4]] :=
  C8_mul_identity (r := 2) (n := 2) (by decide)

/-- C9: the stream output renders outer brackets around the whole matrix,
every row as `[ e0 e1 ... en ]`, rows other than the last followed by a
newline (plus one alignment space); the size overload renders the pair as
`(rows, cols)` followed by a newline; a 1×1 matrix containing 5 renders as
the single-bracketed single-row string containing "5". -/
theorem C9_formatting :
    (∀ (α : Type) (f : α → String) (m : Matrix α), m ≠ [] →
      formatMatrix f m = some ("[" ++
        String.join (List.intersperse "\n " (m.map (formatRow f))) ++
        "]" ++ "\n")) ∧
    (∀ r c : Nat, formatSize (r, c) =
      "(" ++ toString r ++ ", " ++ toString c ++ ")" ++ "\n") ∧
    formatRow toString ([5] : List ℤ) = "[ 5 ]" ∧
    formatMatrix toString ([[5]] : Matrix ℤ) = some "[[ 5 ]]\n" ∧
    formatMatrix toString ([[1,2],[3,4]] : Matrix ℤ) =
      some "[[ 1 2 ]\n [ 3 4 ]]\n" :=
  ⟨fun α f m h => formatMatrix_eq_intersperse f m h, fun r c => rfl,
    by decide, by decide, by decide⟩

/-- Witness for C9's quantified clause on a concrete single-row matrix. -/
theorem C9_witness :
    formatMatrix toString ([[9, 8]] : Matrix ℤ) = some ("[" ++
      String.join (List.intersperse "\n "
        (([[9, 8]] : Matrix ℤ).map (formatRow toString))) ++ "]" ++ "\n") :=
  C9_formatting.1 ℤ toString [[9, 8]] (by decide)

/-- C10: `size()`, `transpose()` and `operator*` read `m_matrix[0]` without a
guard — on a zero-row grid each fails to return (the out-of-range branch of
the embedding) — while under the minimum-1×1 invariant every such access is
in bounds: `size` returns `(rowCount, colCount)` and `transpose` and
`operator*` (on compatible shapes) return a result. -/
theorem C10_first_row_access {α : Type} [AddCommMonoid α] [Mul α] :
    (size ([] : Matrix α) = none ∧ transpose ([] : Matrix α) = none ∧
      ∀ m2 : Matrix α, mul ([] : Matrix α) m2 = none) ∧
    (∀ (m : Matrix α) (r c : Nat), wf m r c → size m = some (r, c)) ∧
    (∀ (m : Matrix α) (r c : Nat), wf m r c → (transpose m).isSome) ∧
    (∀ (m1 m2 : Matrix α) (m n k : Nat), wf m1 m n → wf m2 n k →
      (mul m1 m2).isSome) := by
  refine ⟨⟨rfl, rfl, fun m2 => rfl⟩, ?_, ?_, ?_⟩
  · intro m r c h
    obtain ⟨r0, hr0, hr0len⟩ := wf_get?0 h
    rw [size, hr0, Option.map_some', hr0len, h.1]
  · intro m r c h
    obtain ⟨res, hres, -, -, -⟩ := transpose_eq h
    rw [hres]
    rfl
  · intro m1 m2 m n k h1 h2
    obtain ⟨res, hres, -, -, -⟩ := mul_eq h1 h2
    rw [hres]
    rfl

/-- Witness for C10 on a concrete 1×1 matrix. -/
theorem C10_witness :
    size ([[7]] : Matrix ℤ) = some (1, 1) ∧
    (transpose ([[7]] : Matrix ℤ)).isSome ∧
    (mul ([[7]] : Matrix ℤ) [[2]]).isSome :=
  ⟨C10_first_row_access.2.1 [[7]] 1 1 (by decide),
    C10_first_row_access.2.2.1 [[7]] 1 1 (by decide),
    C10_first_row_access.2.2.2 [[7]] [[2]] 1 1 1 (by decide) (by decide)⟩

end linalg
